import Mathlib

/-!
Verification of the Commute Route Intelligence Subsystem of the Lighthouse
repository (`backend/fetchers/traffic.py`, `backend/database.py`).

The Python numeric operations on floats are modelled exactly: a CPython
`float` is an IEEE-754 binary64 value, and every arithmetic result is the
exact rational result rounded to 53 significant bits (round to nearest,
ties to even).  `roundD` below performs that rounding on `ℚ`; overflow and
subnormal ranges are outside the magnitudes exercised here and are not
modelled.  CPython compares an `int` with a `float` exactly, so comparisons
against a rounded bound are exact rational comparisons.  Python `round`
rounds half to even (`rne`).  Python's `list.sort` is a stable sort, which
`stableSort` reproduces (any two stable sorts of the same keyed list agree).
-/

set_option maxHeartbeats 1000000
set_option maxRecDepth 8000

set_option allowUnsafeReducibility true in
attribute [semireducible] Rat.mul Rat.inv Rat.add Rat.sub Rat.ofScientific

/-- Round a rational to the nearest integer, ties to even: the rounding used
by Python `round` and by IEEE-754 round-to-nearest-even on exact values. -/
def rne (x : ℚ) : ℤ :=
  if x - ⌊x⌋ < 1/2 then ⌊x⌋
  else if (1:ℚ)/2 < x - ⌊x⌋ then ⌊x⌋ + 1
  else if ⌊x⌋ % 2 = 0 then ⌊x⌋ else ⌊x⌋ + 1

/-- Fuel-driven binary logarithm on naturals (structurally recursive so that
it reduces inside the kernel). -/
def log2fuel : ℕ → ℕ → ℕ
  | 0, _ => 0
  | fuel + 1, n => if n < 2 then 0 else log2fuel fuel (n / 2) + 1

/-- Floor of the base-2 logarithm of a natural number (0 for 0). -/
def nlog2 (n : ℕ) : ℕ := log2fuel n n

/-- Floor of the base-2 logarithm of a positive rational (arbitrary on
non-positive input). -/
def qexp (q : ℚ) : ℤ :=
  let e0 : ℤ := (nlog2 q.num.toNat : ℤ) - (nlog2 q.den : ℤ)
  if q < 2 ^ e0 then e0 - 1 else e0

/-- Round a positive rational to 53 significant binary digits
(round to nearest, ties to even). -/
def roundDpos (q : ℚ) : ℚ :=
  let e := qexp q
  (rne (q * 2 ^ ((52:ℤ) - e)) : ℚ) * 2 ^ (e - (52:ℤ))

/-- The exact rational value of the IEEE-754 binary64 double nearest to `q`
(ties to even); overflow/subnormals are not modelled. -/
def roundD (q : ℚ) : ℚ :=
  if q < 0 then - roundDpos (-q) else if q = 0 then 0 else roundDpos q

/-- Stable insertion of `x` into `l`: `x` is placed before the first element
`y` with `le x y`.  Used to model Python's stable `list.sort`. -/
def insertLe (le : α → α → Bool) (x : α) : List α → List α
  | [] => [x]
  | y :: ys => if le x y then x :: y :: ys else y :: insertLe le x ys

/-- Stable sort (identical output to Python's `list.sort` for a total
preorder, since all stable sorts agree). -/
def stableSort (le : α → α → Bool) : List α → List α
  | [] => []
  | x :: xs => insertLe le x (stableSort le xs)

/-- `summary` object of one routing-provider candidate
(`travelTimeInSeconds`, `trafficDelayInSeconds`), fields optional. -/
structure RouteSummary where
  travelTimeInSeconds : Option ℤ
  trafficDelayInSeconds : Option ℤ
deriving DecidableEq, Repr

/-- A road label in the provider payload: either a plain string or a
structured object carrying a `text` field (spec §9: `RoadLabel`). -/
inductive RoadLabel where
  | plain (s : String)
  | structured (text : String)
deriving DecidableEq, Repr

/-- One entry of a candidate's `sections` list. -/
structure RouteSection where
  sectionType : Option String
  startPointIndex : Option ℤ
  endPointIndex : Option ℤ
  streetName : Option RoadLabel
  roadNumbers : List RoadLabel
deriving DecidableEq, Repr

/-- One route candidate returned by the routing provider. -/
structure RouteCandidate where
  summary : Option RouteSummary
  sections : List RouteSection
deriving DecidableEq, Repr

/-- The `(index, travelTimeInSeconds)` pairs collected by
`routes_within_time_margin` (traffic.py lines 221-226): one pair per
candidate whose summary carries a travel time. -/
def knownTimes (routes_data : List RouteCandidate) : List (ℕ × ℤ) :=
  routes_data.enum.filterMap fun p =>
    ((p.2.summary.getD ⟨none, none⟩).travelTimeInSeconds).map fun t => (p.1, t)

/-- `times.sort(key=lambda x: x[1]); fastest_sec = times[0][1]`
(traffic.py lines 229-230): the fastest known travel time. -/
def fastestOf (routes_data : List RouteCandidate) : ℤ :=
  ((stableSort (fun a b => decide (a.2 ≤ b.2)) (knownTimes routes_data)).headD (0, 0)).2

/-- `max_sec = fastest_sec * (1 + time_margin_percent / 100.0)`
(traffic.py line 233) in binary64: every intermediate result is rounded
with `roundD` exactly as CPython float arithmetic rounds it. -/
def maxSecOf (routes_data : List RouteCandidate) (time_margin_percent : ℤ) : ℚ :=
  roundD (roundD ((fastestOf routes_data : ℤ) : ℚ) *
    roundD (1 + roundD (roundD ((time_margin_percent : ℤ) : ℚ) / 100)))

/-- Translation of `routes_within_time_margin` (traffic.py lines 210-235).
The final `t <= max_sec` comparison of a Python int with a float is exact,
so it is the exact rational comparison against `maxSecOf`. -/
def routes_within_time_margin (routes_data : List RouteCandidate)
    (time_margin_percent : ℤ) : List ℕ :=
  if routes_data.isEmpty then []
  else if (knownTimes routes_data).isEmpty then [0]
  else if fastestOf routes_data ≤ 0 then List.range routes_data.length
  else
    (List.range routes_data.length).filter fun i =>
      (knownTimes routes_data).any fun pr =>
        pr.1 == i && decide ((pr.2 : ℚ) ≤ maxSecOf routes_data time_margin_percent)

/-- Python `str.strip` whitespace set (ASCII subset). -/
def isWsChar (c : Char) : Bool :=
  c == ' ' || c == '\t' || c == '\n' || c == '\r' || c == '\x0b' || c == '\x0c'

/-- Python `text.strip()` on a character list. -/
def pyStrip (cs : List Char) : List Char :=
  ((cs.dropWhile isWsChar).reverse.dropWhile isWsChar).reverse

/-- Python `s.strip()` on strings. -/
def pyStripS (s : String) : String := ⟨pyStrip s.data⟩

/-- Python `s.lower()` (ASCII case folding, kernel-reducible). -/
def pyLower (s : String) : String := ⟨s.data.map Char.toLower⟩

/-- Python `sep.join(parts)`. -/
def pyJoin (sep : String) : List String → String
  | [] => ""
  | [x] => x
  | x :: xs => x ++ sep ++ pyJoin sep xs

/-- Python `s[:n]` (prefix of at most `n` characters). -/
def pyTake (s : String) (n : ℕ) : String := ⟨s.data.take n⟩

/-- Text of a `roadNumbers` entry: `rn.get("text", str(rn))` for a dict,
`str(rn)` for a plain value (traffic.py lines 270-275). -/
def labelText : RoadLabel → String
  | .plain s => s
  | .structured t => t

/-- Street-name text (traffic.py lines 260-267): a dict yields its `text`
field, a plain string is stripped when truthy, an absent value yields "". -/
def streetTextOf : Option RoadLabel → String
  | some (.structured t) => t
  | some (.plain s) => if s = "" then "" else pyStripS s
  | none => ""

/-- One extracted road stretch: display name and point-index length. -/
structure RoadEntry where
  name : String
  length_estimate : ℤ
deriving DecidableEq, Repr

/-- Translation of `extract_road_names_from_route` (traffic.py lines
238-298): keep only `IMPORTANT_ROAD_STRETCH` sections of length at least
20 index points, prefer up to two road numbers joined by ", " over the
street name, deduplicate case-insensitively, sort by descending length
(stable). -/
def extract_road_names_from_route (route : RouteCandidate) : List RoadEntry :=
  let step := fun (acc : List RoadEntry × List String) (sec : RouteSection) =>
    if sec.sectionType ≠ some "IMPORTANT_ROAD_STRETCH" then acc
    else
      let start_idx := sec.startPointIndex.getD 0
      let end_idx := sec.endPointIndex.getD start_idx
      let length_estimate := max 1 (end_idx - start_idx)
      let street_name := streetTextOf sec.streetName
      let road_num_texts := sec.roadNumbers.map labelText
      let display_name :=
        if road_num_texts ≠ [] then pyJoin ", " (road_num_texts.take 2)
        else if street_name ≠ "" then pyStripS street_name
        else ""
      if length_estimate < 20 then acc
      else if display_name ≠ "" ∧ ¬ acc.2.contains (pyLower display_name) then
        (acc.1 ++ [⟨display_name, length_estimate⟩], acc.2 ++ [pyLower display_name])
      else acc
  let folded := route.sections.foldl step ([], [])
  stableSort (fun a b => decide (-a.length_estimate ≤ -b.length_estimate)) folded.1

/-- The per-alternative record built by the first loop of
`aggregate_main_roads` (traffic.py lines 316-334). -/
structure RouteInfo where
  travel_time_min : ℤ
  delay_min : ℤ
  roads : List String
  road_set : List String
deriving DecidableEq, Repr

/-- One output entry of `aggregate_main_roads` (a `RouteAlternative` of the
spec, §3). -/
structure RouteAlt where
  route_num : ℤ
  travel_time_min : ℤ
  delay_min : ℤ
  is_fastest : Bool
  time_vs_fastest : ℤ
  key_roads : List String
  status : Option String
deriving DecidableEq, Repr

/-- First loop of `aggregate_main_roads` (traffic.py lines 316-334):
for each in-range viable index, round times to minutes (Python
`round(x / 60)` on floats), extract roads, keep the top 3 names and their
lower-cased set. -/
def routesInfoOf (routes_data : List RouteCandidate) (idxs : List ℕ) :
    List RouteInfo :=
  idxs.filterMap fun idx =>
    (routes_data.get? idx).map fun route =>
      let summary := route.summary.getD ⟨none, none⟩
      let travel_time := rne (roundD ((summary.travelTimeInSeconds.getD 0 : ℚ) / 60))
      let delay := rne (roundD ((summary.trafficDelayInSeconds.getD 0 : ℚ) / 60))
      let road_names := ((extract_road_names_from_route route).take 3).map RoadEntry.name
      { travel_time_min := travel_time, delay_min := delay,
        roads := road_names, road_set := road_names.map pyLower }

/-- `min(r["travel_time_min"] for r in routes_info)` (traffic.py line 340);
0 on an empty list (unreached: the caller guards non-emptiness). -/
def minTimeOf : List RouteInfo → ℤ
  | [] => 0
  | r :: rs => rs.foldl (fun m x => min m x.travel_time_min) r.travel_time_min

/-- Roads common to all viable alternatives (traffic.py lines 342-348):
the intersection of every `road_set` when more than one alternative
survived, otherwise empty. -/
def commonRoadsOf (info : List RouteInfo) : List String :=
  if 1 < info.length then
    match info with
    | [] => []
    | r :: rs => rs.foldl (fun acc x => acc.filter fun s => x.road_set.contains s) r.road_set
  else []

/-- Substring test on character lists, the semantics of Python's
`needle in hay` for strings (an empty needle always matches). -/
def hasSubstr (needle : List Char) : List Char → Bool
  | [] => needle.isEmpty
  | c :: rest => needle.isPrefixOf (c :: rest) || hasSubstr needle rest

/-- Incident-status attachment (traffic.py lines 371-376): when notes are
truthy, the first display road whose lower-cased name occurs in the
lower-cased notes receives the notes text truncated to 100 characters. -/
def statusFor (display_roads : List String) (primary_notes : Option String) :
    Option String :=
  match primary_notes with
  | none => none
  | some s =>
    if s = "" then none
    else
      match display_roads.find? (fun road => hasSubstr (pyLower road).data (pyLower s).data) with
      | some _ => some (if 100 < s.length then pyTake s 100 else s)
      | none => none

/-- One iteration of the second loop of `aggregate_main_roads`
(traffic.py lines 352-378) for the enumerated pair `p = (i, r)`:
`route_num` is `i + 1` in the pre-sort enumeration order, `key_roads` is
the first 2 of the roads not common to all alternatives, falling back to
the first 2 of the alternative's own roads when none are unique. -/
def buildEntry (min_time : ℤ) (common_roads : List String)
    (primary_notes : Option String) (p : ℕ × RouteInfo) : RouteAlt :=
  let unique_roads := p.2.roads.filter fun name => ¬ common_roads.contains (pyLower name)
  let display_roads := if unique_roads ≠ [] then unique_roads.take 2 else p.2.roads.take 2
  { route_num := (p.1 : ℤ) + 1,
    travel_time_min := p.2.travel_time_min,
    delay_min := p.2.delay_min,
    is_fastest := p.2.travel_time_min == min_time,
    time_vs_fastest := p.2.travel_time_min - min_time,
    key_roads := display_roads,
    status := statusFor display_roads primary_notes }

/-- Second loop of `aggregate_main_roads` (traffic.py lines 350-378). -/
def buildEntries (info : List RouteInfo) (min_time : ℤ) (common_roads : List String)
    (primary_notes : Option String) : List RouteAlt :=
  info.enum.map (buildEntry min_time common_roads primary_notes)

/-- Translation of `aggregate_main_roads` (traffic.py lines 301-382).
`primary_delay_minutes` is accepted and unused, exactly as in the source.
The final `result.sort(key=lambda x: x["travel_time_min"])` is Python's
stable sort. -/
def aggregate_main_roads (routes_data : List RouteCandidate)
    (within_margin_indices : List ℕ) (_primary_delay_minutes : Option ℤ)
    (primary_notes : Option String) : List RouteAlt :=
  if within_margin_indices.length = 0 then []
  else if (routesInfoOf routes_data within_margin_indices).isEmpty then []
  else
    stableSort (fun a b => decide (a.travel_time_min ≤ b.travel_time_min))
      (buildEntries (routesInfoOf routes_data within_margin_indices)
        (minTimeOf (routesInfoOf routes_data within_margin_indices))
        (commonRoadsOf (routesInfoOf routes_data within_margin_indices))
        primary_notes)

/-- Columns declared by the `TrafficRoute` SQLAlchemy model
(database.py lines 158-175).  Only these attributes are persisted. -/
def trafficRouteColumns : List String :=
  ["id", "name", "origin", "destination", "origin_lat", "origin_lon",
   "dest_lat", "dest_lon", "origin_zone", "dest_zone",
   "current_duration_minutes", "typical_duration_minutes", "delay_minutes",
   "fetched_at"]

/-- Columns added to `traffic_routes` by the `init_db` migrations
(database.py lines 289-294). -/
def trafficRouteMigrationColumns : List String :=
  ["origin_lat", "origin_lon", "dest_lat", "dest_lon", "origin_zone", "dest_zone"]

/-- Attributes assigned on the route object by `fetch_route_estimates`
(traffic.py lines 516-536). -/
def fetchRouteEstimatesAssignedAttrs : List String :=
  ["current_duration_minutes", "typical_duration_minutes", "delay_minutes",
   "main_roads", "alternatives_within_margin", "fetched_at",
   "origin_lat", "origin_lon", "dest_lat", "dest_lon",
   "origin_zone", "dest_zone", "traffic_notes"]

/-- The three duration columns written by `fetch_route_estimates`. -/
structure DurationFields where
  current_duration_minutes : ℤ
  typical_duration_minutes : ℤ
  delay_minutes : ℤ
deriving DecidableEq, Repr

/-- Durations derived from a provider response by `fetch_route_estimates`
(traffic.py lines 479-489): all from the first candidate's summary, with
`typical = current - delay`; `none` when the response has no routes (the
route is skipped). -/
def routeEstimateDurations (routes_data : List RouteCandidate) :
    Option DurationFields :=
  match routes_data with
  | [] => none
  | r0 :: _ =>
    let summary := r0.summary.getD ⟨none, none⟩
    let travel_time := summary.travelTimeInSeconds.getD 0
    let delay := summary.trafficDelayInSeconds.getD 0
    let cur_duration := rne (roundD ((travel_time : ℚ) / 60))
    let delay_min := rne (roundD ((delay : ℚ) / 60))
    some ⟨cur_duration, cur_duration - delay_min, delay_min⟩

/-- In-memory state of one `TrafficRoute` ORM object as touched by
`fetch_route_estimates` (the three attributes that are not columns live
only on the Python instance). -/
structure RouteObjState where
  name : String
  origin : String
  destination : String
  current_duration_minutes : Option ℤ
  typical_duration_minutes : Option ℤ
  delay_minutes : Option ℤ
  main_roads : Option (List RouteAlt)
  alternatives_within_margin : Option ℤ
  origin_lat : Option ℚ
  origin_lon : Option ℚ
  dest_lat : Option ℚ
  dest_lon : Option ℚ
  origin_zone : Option String
  dest_zone : Option String
  traffic_notes : Option String
  fetched_at : ℕ
deriving DecidableEq, Repr

/-- Python truthiness of an optional string column (`None` and `""` are
falsy). -/
def pyTruthyStr : Option String → Bool
  | none => false
  | some s => !(s == "")

/-- Python truthiness of an optional float column (`None` and `0.0` are
falsy). -/
def pyTruthyNum : Option ℚ → Bool
  | none => false
  | some x => !(x == 0)

/-- The per-route update block of `fetch_route_estimates` (traffic.py lines
516-536): durations, road aggregate, coordinates and notes are overwritten
each cycle; a zone is looked up and written only when the stored zone is
falsy and the corresponding latitude is truthy. -/
def applyRouteUpdate (route : RouteObjState)
    (cur_duration typical_duration delay_min : ℤ)
    (main_roads_list : List RouteAlt) (alternatives_within_margin : ℤ)
    (now : ℕ) (origin_lat origin_lon dest_lat dest_lon : Option ℚ)
    (origin_zone_lookup dest_zone_lookup : Option String)
    (traffic_notes : String) : RouteObjState :=
  { route with
    current_duration_minutes := some cur_duration
    typical_duration_minutes := some typical_duration
    delay_minutes := some delay_min
    main_roads := some main_roads_list
    alternatives_within_margin := some alternatives_within_margin
    fetched_at := now
    origin_lat := origin_lat
    origin_lon := origin_lon
    dest_lat := dest_lat
    dest_lon := dest_lon
    origin_zone :=
      if !pyTruthyStr route.origin_zone && pyTruthyNum origin_lat
      then origin_zone_lookup else route.origin_zone
    dest_zone :=
      if !pyTruthyStr route.dest_zone && pyTruthyNum dest_lat
      then dest_zone_lookup else route.dest_zone
    traffic_notes := some traffic_notes }

/-- One entry of the configured routes list (`{name, origin, destination}`
dicts, fields optional). -/
structure RouteConfig where
  name : Option String
  origin : Option String
  destination : Option String
deriving DecidableEq, Repr

/-- The raw `traffic_options` JSON dict (keys optional). -/
structure TrafficOptionsDict where
  max_alternatives : Option ℤ
  time_margin_percent : Option ℤ
deriving DecidableEq, Repr

/-- The `setdefault` and clamp steps of `get_active_traffic_settings`
(traffic.py lines 194-197): defaults 3 and 15, then clamps to [1, 5] and
[5, 50]. -/
def clampTrafficOptions (d : TrafficOptionsDict) : TrafficOptionsDict :=
  let ma := d.max_alternatives.getD 3
  let tm := d.time_margin_percent.getD 15
  ⟨some (min 5 (max 1 ma)), some (min 50 (max 5 tm))⟩

/-- In-memory `UserSettings` ORM row with exactly the columns declared by
the model (database.py lines 228-251). -/
structure UserSettingsObj where
  id : ℤ
  location_name : Option String
  location_lat : Option ℚ
  location_lon : Option ℚ
  nws_zone_codes : Option String
  sports_teams : List String
  traffic_routes : List RouteConfig
  reader_blacklisted_sources : List ℤ
  reader_cache_hours : Option ℤ
  reader_theme : Option String
  updated_at : ℕ
deriving DecidableEq, Repr

/-- Columns declared by the `UserSettings` SQLAlchemy model
(database.py lines 228-251). -/
def userSettingsColumns : List String :=
  ["id", "location_name", "location_lat", "location_lon", "nws_zone_codes",
   "sports_teams", "traffic_routes", "reader_blacklisted_sources",
   "reader_cache_hours", "reader_theme", "updated_at"]

/-- Python attribute access `settings.traffic_options` on a freshly loaded
`UserSettings` row.  The model declares no `traffic_options` column
(database.py lines 228-251, absent from `userSettingsColumns`), so the
access raises `AttributeError`. -/
def getattrTrafficOptions (_ : UserSettingsObj) :
    Except String (Option TrafficOptionsDict) :=
  .error "AttributeError: traffic_options"

/-- The `traffic_options` portion of `get_active_traffic_settings`
(traffic.py lines 190-197): with no settings row the empty dict is
defaulted and clamped; with a row present the attribute access is
evaluated first. -/
def get_active_traffic_settings_options (settings : Option UserSettingsObj) :
    Except String TrafficOptionsDict :=
  match settings with
  | none => .ok (clampTrafficOptions ⟨none, none⟩)
  | some row =>
    match getattrTrafficOptions row with
    | .error e => .error e
    | .ok v => .ok (clampTrafficOptions (v.getD ⟨none, none⟩))

/-- Parser for the numeric part `\d+(\.\d+)?` of the coordinate regex
(ASCII digits): returns the consumed token (with the already-consumed sign
prepended) and the remaining input, or `none` when no digit is found at
the start. -/
def numTokenBody (sgn cs1 : List Char) : Option (List Char × List Char) :=
  if cs1.takeWhile Char.isDigit = [] then none
  else if (cs1.dropWhile Char.isDigit).headD ' ' = '.' then
    (if ((cs1.dropWhile Char.isDigit).tail).takeWhile Char.isDigit = [] then
      some (sgn ++ cs1.takeWhile Char.isDigit, cs1.dropWhile Char.isDigit)
     else
      some (sgn ++ cs1.takeWhile Char.isDigit ++
          '.' :: ((cs1.dropWhile Char.isDigit).tail).takeWhile Char.isDigit,
        ((cs1.dropWhile Char.isDigit).tail).dropWhile Char.isDigit))
  else some (sgn ++ cs1.takeWhile Char.isDigit, cs1.dropWhile Char.isDigit)

/-- Parser for the regex fragment `-?\d+(\.\d+)?`: an optional sign
followed by the numeric part. -/
def numToken (cs : List Char) : Option (List Char × List Char) :=
  if cs.headD ' ' = '-' then numTokenBody ['-'] cs.tail
  else numTokenBody [] cs

/-- After the second number, the regex anchors at end of input. -/
def coordTail : Option (List Char × List Char) → Bool
  | some (_, r2) => r2.isEmpty
  | none => false

/-- After the first number, the regex requires a comma and then a second
number reaching end of input. -/
def coordRest : List Char → Bool
  | [] => false
  | c :: rest => c == ',' && coordTail (numToken rest)

/-- Continuation on the result of parsing the first number. -/
def coordCont : Option (List Char × List Char) → Bool
  | none => false
  | some (_, r1) => coordRest r1

/-- Full match of the regex `^-?\d+(\.\d+)?,-?\d+(\.\d+)?$`
(traffic.py line 26): number, comma, number, end of input. -/
def coordMatch (cs : List Char) : Bool :=
  coordCont (numToken cs)

/-- Translation of `is_coordinates` (traffic.py lines 22-26): an empty
string is falsy, otherwise the stripped text must match the coordinate
regex. -/
def is_coordinates (s : String) : Bool :=
  if s.data = [] then false else coordMatch (pyStrip s.data)

/-- Python `s.split(',')` on a character list. -/
def splitComma : List Char → List (List Char)
  | [] => [[]]
  | c :: rest =>
    if c = ',' then [] :: splitComma rest
    else
      match splitComma rest with
      | [] => [[c]]
      | h :: t => (c :: h) :: t

/-- Python `s.split(',')` on strings. -/
def pySplitComma (s : String) : List String :=
  (splitComma s.data).map fun cs => String.mk cs

/-- Optional exponent part of the CPython float literal grammar
(`[eE][+-]?digits` or nothing), consuming to the end. -/
def expPart : List Char → Bool
  | [] => true
  | c :: rest =>
    if c = 'e' ∨ c = 'E' then
      (if rest.headD ' ' = '+' ∨ rest.headD ' ' = '-' then
        decide (rest.tail.takeWhile Char.isDigit ≠ []) &&
          decide (rest.tail.dropWhile Char.isDigit = [])
       else
        decide (rest.takeWhile Char.isDigit ≠ []) &&
          decide (rest.dropWhile Char.isDigit = []))
    else false

/-- Mantissa-plus-exponent of the CPython `float()` grammar after sign
stripping: `digits [. digits*] exponent?` or `. digits+ exponent?`. -/
def floatBodyCore (cs1 : List Char) : Bool :=
  if cs1.takeWhile Char.isDigit = [] then
    (if (cs1.dropWhile Char.isDigit).headD ' ' = '.' then
      (if ((cs1.dropWhile Char.isDigit).tail).takeWhile Char.isDigit = [] then false
       else expPart (((cs1.dropWhile Char.isDigit).tail).dropWhile Char.isDigit))
     else false)
  else
    (if (cs1.dropWhile Char.isDigit).headD ' ' = '.' then
      expPart (((cs1.dropWhile Char.isDigit).tail).dropWhile Char.isDigit)
     else expPart (cs1.dropWhile Char.isDigit))

/-- Body of the CPython `float()` grammar after stripping:
`[+-]? (digits [. digits*] | . digits+) exponent?`.
(`inf`/`nan` forms are omitted; the model only accepts fewer strings.) -/
def floatBody (cs : List Char) : Bool :=
  if cs.headD ' ' = '+' ∨ cs.headD ' ' = '-' then floatBodyCore cs.tail
  else floatBodyCore cs

/-- Model of CPython `float(s)` succeeding: whitespace is stripped and the
remainder must fit the float literal grammar. -/
def pyFloatAccepts (s : String) : Bool :=
  floatBody (pyStrip s.data)

/-- `rne` is the identity on integers. -/
theorem rne_intCast (n : ℤ) : rne (n : ℚ) = n := by
  unfold rne
  rw [Int.floor_intCast]
  norm_num

/-- `rne x` is at least `⌊x⌋`. -/
theorem floor_le_rne (x : ℚ) : ⌊x⌋ ≤ rne x := by
  unfold rne; split_ifs <;> omega

/-- `rne x` is at most `⌊x⌋ + 1`. -/
theorem rne_le_floor_add_one (x : ℚ) : rne x ≤ ⌊x⌋ + 1 := by
  unfold rne; split_ifs <;> omega

/-- Round-half-to-even is monotone. -/
theorem rne_mono {x y : ℚ} (h : x ≤ y) : rne x ≤ rne y := by
  rcases eq_or_lt_of_le (Int.floor_mono h) with heq | hlt
  · unfold rne
    rw [← heq]
    have h2 : x - ⌊x⌋ ≤ y - ⌊x⌋ := by linarith
    split_ifs <;> first | omega | (exfalso; linarith)
  · calc rne x ≤ ⌊x⌋ + 1 := rne_le_floor_add_one x
      _ ≤ ⌊y⌋ := hlt
      _ ≤ rne y := floor_le_rne y

/-- Correctness of the fuel-driven binary logarithm. -/
theorem log2fuel_bounds :
    ∀ (fuel n : ℕ), n ≤ fuel → 1 ≤ n →
      2 ^ log2fuel fuel n ≤ n ∧ n < 2 ^ (log2fuel fuel n + 1) := by
  intro fuel
  induction fuel with
  | zero => intro n h1 h2; omega
  | succ f ih =>
    intro n hle h1
    rw [log2fuel]
    by_cases hn : n < 2
    · rw [if_pos hn]; simp; omega
    · rw [if_neg hn]
      have h2 : n / 2 ≤ f := by omega
      have h3 : 1 ≤ n / 2 := by omega
      obtain ⟨l, u⟩ := ih (n / 2) h2 h3
      constructor
      · rw [pow_succ]; omega
      · rw [pow_succ]; omega

/-- Correctness of `nlog2`. -/
theorem nlog2_bounds {n : ℕ} (h : 1 ≤ n) :
    2 ^ nlog2 n ≤ n ∧ n < 2 ^ (nlog2 n + 1) :=
  log2fuel_bounds n n le_rfl h

/-- `qexp q` is the floor base-2 logarithm of a positive rational. -/
theorem qexp_spec {q : ℚ} (hq : 0 < q) :
    (2:ℚ) ^ qexp q ≤ q ∧ q < 2 ^ (qexp q + 1) := by
  have hnum : 0 < q.num := Rat.num_pos.2 hq
  set a := q.num.toNat with ha_def
  set b := q.den with hb_def
  have ha : (a : ℤ) = q.num := Int.toNat_of_nonneg hnum.le
  have ha1 : 1 ≤ a := by omega
  have hb1 : 1 ≤ b := Nat.pos_of_ne_zero q.den_nz
  obtain ⟨hal, hau⟩ := nlog2_bounds ha1
  obtain ⟨hbl, hbu⟩ := nlog2_bounds hb1
  have hbq : (0:ℚ) < (b : ℚ) := by exact_mod_cast hb1
  have haq : (0:ℚ) < (a : ℚ) := by exact_mod_cast ha1
  have hq_eq : q = (a : ℚ) / (b : ℚ) := by
    rw [← Rat.num_div_den q]
    congr 1
    · rw [← ha]; push_cast; ring
  set la := nlog2 a with hla_def
  set lb := nlog2 b with hlb_def
  have key_high : q < 2 ^ (((la : ℤ) - lb) + 1) := by
    rw [hq_eq]
    have e1 : ((la : ℤ) - lb) + 1 = ((la + 1 : ℕ) : ℤ) - (lb : ℤ) := by push_cast; ring
    rw [e1, zpow_sub₀ (two_ne_zero), div_lt_div_iff₀ hbq (by positivity)]
    rw [zpow_natCast, zpow_natCast]
    calc (a : ℚ) * (2 ^ lb : ℚ) < (2 ^ (la + 1) : ℚ) * (2 ^ lb : ℚ) := by
          apply mul_lt_mul_of_pos_right _ (by positivity)
          exact_mod_cast hau
      _ ≤ (2 ^ (la + 1) : ℚ) * (b : ℚ) := by
          apply mul_le_mul_of_nonneg_left _ (by positivity)
          exact_mod_cast hbl
  have key_low : (2:ℚ) ^ (((la : ℤ) - lb) - 1) < q := by
    rw [hq_eq]
    have e1 : ((la : ℤ) - lb) - 1 = ((la : ℕ) : ℤ) - ((lb + 1 : ℕ) : ℤ) := by push_cast; ring
    rw [e1, zpow_sub₀ (two_ne_zero), div_lt_div_iff₀ (by positivity) hbq]
    rw [zpow_natCast, zpow_natCast]
    calc (2 ^ la : ℚ) * (b : ℚ) ≤ (a : ℚ) * (b : ℚ) := by
          apply mul_le_mul_of_nonneg_right _ hbq.le
          exact_mod_cast hal
      _ < (a : ℚ) * (2 ^ (lb + 1) : ℚ) := by
          apply mul_lt_mul_of_pos_left _ haq
          exact_mod_cast hbu
  have hqexp : qexp q = if q < 2 ^ ((la : ℤ) - lb) then ((la : ℤ) - lb) - 1 else ((la : ℤ) - lb) := by
    simp only [qexp, ← ha_def, ← hb_def, ← hla_def, ← hlb_def]
  rw [hqexp]
  by_cases hcase : q < 2 ^ ((la : ℤ) - lb)
  · rw [if_pos hcase]
    constructor
    · exact key_low.le
    · rwa [sub_add_cancel]
  · rw [if_neg hcase]
    exact ⟨le_of_not_lt hcase, key_high⟩

/-- Lower bound: rounding a positive rational to binary64 cannot go below
`2 ^ qexp q`. -/
theorem le_roundDpos {q : ℚ} (hq : 0 < q) : (2:ℚ) ^ qexp q ≤ roundDpos q := by
  obtain ⟨hl, _⟩ := qexp_spec hq
  unfold roundDpos
  have hp : (0:ℚ) < 2 ^ ((52:ℤ) - qexp q) := zpow_pos (by norm_num) _
  have h1 : ((2 ^ 52 : ℤ) : ℚ) ≤ q * 2 ^ ((52:ℤ) - qexp q) := by
    have : (2:ℚ) ^ (52:ℤ) = 2 ^ qexp q * 2 ^ ((52:ℤ) - qexp q) := by
      rw [← zpow_add₀ (two_ne_zero : (2:ℚ) ≠ 0)]
      congr 1; ring
    calc ((2 ^ 52 : ℤ) : ℚ) = (2:ℚ) ^ (52:ℤ) := by push_cast; norm_num
      _ = 2 ^ qexp q * 2 ^ ((52:ℤ) - qexp q) := this
      _ ≤ q * 2 ^ ((52:ℤ) - qexp q) := mul_le_mul_of_nonneg_right hl hp.le
  have h2 : (2 ^ 52 : ℤ) ≤ rne (q * 2 ^ ((52:ℤ) - qexp q)) := by
    have := rne_mono h1
    rwa [rne_intCast] at this
  have h3 : ((2 ^ 52 : ℤ) : ℚ) * 2 ^ (qexp q - (52:ℤ)) ≤
      (rne (q * 2 ^ ((52:ℤ) - qexp q)) : ℚ) * 2 ^ (qexp q - (52:ℤ)) := by
    apply mul_le_mul_of_nonneg_right _ (zpow_nonneg (by norm_num) _)
    exact_mod_cast h2
  have e52 : ((2 ^ 52 : ℤ) : ℚ) = (2:ℚ) ^ (52 : ℤ) := by norm_num
  calc (2:ℚ) ^ qexp q = ((2 ^ 52 : ℤ) : ℚ) * 2 ^ (qexp q - (52:ℤ)) := by
        rw [e52, ← zpow_add₀ (two_ne_zero : (2:ℚ) ≠ 0)]
        congr 1; ring
    _ ≤ _ := h3

/-- Upper bound: rounding a positive rational to binary64 cannot exceed
`2 ^ (qexp q + 1)`. -/
theorem roundDpos_le {q : ℚ} (hq : 0 < q) : roundDpos q ≤ 2 ^ (qexp q + 1) := by
  obtain ⟨_, hu⟩ := qexp_spec hq
  unfold roundDpos
  have hp : (0:ℚ) < 2 ^ ((52:ℤ) - qexp q) := zpow_pos (by norm_num) _
  have h1 : q * 2 ^ ((52:ℤ) - qexp q) ≤ ((2 ^ 53 : ℤ) : ℚ) := by
    have e53 : ((2 ^ 53 : ℤ) : ℚ) = (2:ℚ) ^ (53 : ℤ) := by norm_num
    have : (2:ℚ) ^ (qexp q + 1) * 2 ^ ((52:ℤ) - qexp q) = ((2 ^ 53 : ℤ) : ℚ) := by
      rw [← zpow_add₀ (two_ne_zero : (2:ℚ) ≠ 0), e53]
      congr 1; ring
    calc q * 2 ^ ((52:ℤ) - qexp q) ≤ (2:ℚ) ^ (qexp q + 1) * 2 ^ ((52:ℤ) - qexp q) :=
          mul_le_mul_of_nonneg_right hu.le hp.le
      _ = ((2 ^ 53 : ℤ) : ℚ) := this
  have h2 : rne (q * 2 ^ ((52:ℤ) - qexp q)) ≤ (2 ^ 53 : ℤ) := by
    have := rne_mono h1
    rwa [rne_intCast] at this
  have h3 : (rne (q * 2 ^ ((52:ℤ) - qexp q)) : ℚ) * 2 ^ (qexp q - (52:ℤ)) ≤
      ((2 ^ 53 : ℤ) : ℚ) * 2 ^ (qexp q - (52:ℤ)) := by
    apply mul_le_mul_of_nonneg_right _ (zpow_nonneg (by norm_num) _)
    exact_mod_cast h2
  calc (rne (q * 2 ^ ((52:ℤ) - qexp q)) : ℚ) * 2 ^ (qexp q - (52:ℤ)) ≤
        ((2 ^ 53 : ℤ) : ℚ) * 2 ^ (qexp q - (52:ℤ)) := h3
    _ = (2:ℚ) ^ (qexp q + 1) := by
        rw [show ((2 ^ 53 : ℤ) : ℚ) = (2:ℚ) ^ (53 : ℤ) by norm_num,
          ← zpow_add₀ (two_ne_zero : (2:ℚ) ≠ 0)]
        congr 1; ring

/-- `roundDpos` yields a nonnegative value on positive input. -/
theorem roundDpos_nonneg {q : ℚ} (hq : 0 < q) : 0 ≤ roundDpos q :=
  le_trans (zpow_nonneg (by norm_num) _) (le_roundDpos hq)

/-- `roundDpos` is monotone on positives. -/
theorem roundDpos_mono {x y : ℚ} (hx : 0 < x) (h : x ≤ y) :
    roundDpos x ≤ roundDpos y := by
  have hy : 0 < y := lt_of_lt_of_le hx h
  rcases eq_or_ne (qexp x) (qexp y) with heq | hne
  · unfold roundDpos
    rw [heq]
    apply mul_le_mul_of_nonneg_right _ (zpow_nonneg (by norm_num) _)
    have : rne (x * 2 ^ ((52:ℤ) - qexp y)) ≤ rne (y * 2 ^ ((52:ℤ) - qexp y)) :=
      rne_mono (mul_le_mul_of_nonneg_right h (zpow_nonneg (by norm_num) _))
    exact_mod_cast this
  · have hlt : qexp x < qexp y := by
      obtain ⟨hxl, hxu⟩ := qexp_spec hx
      obtain ⟨hyl, hyu⟩ := qexp_spec hy
      by_contra hge
      have hyx : qexp y < qexp x := lt_of_le_of_ne (le_of_not_lt hge) hne.symm
      have : (2:ℚ) ^ (qexp y + 1) ≤ 2 ^ qexp x :=
        zpow_le_zpow_right₀ (by norm_num) (by omega)
      linarith
    calc roundDpos x ≤ 2 ^ (qexp x + 1) := roundDpos_le hx
      _ ≤ 2 ^ qexp y := zpow_le_zpow_right₀ (by norm_num) (by omega)
      _ ≤ roundDpos y := le_roundDpos hy

/-- `roundD 0 = 0`. -/
theorem roundD_zero : roundD 0 = 0 := by norm_num [roundD]

/-- `roundD` of a negative rational is nonpositive. -/
theorem roundD_nonpos_of_neg {x : ℚ} (hx : x < 0) : roundD x ≤ 0 := by
  unfold roundD
  rw [if_pos hx]
  exact neg_nonpos.2 (roundDpos_nonneg (by linarith))

/-- `roundD` of a nonnegative rational is nonnegative. -/
theorem roundD_nonneg_of_nonneg {x : ℚ} (hx : 0 ≤ x) : 0 ≤ roundD x := by
  unfold roundD
  rw [if_neg (not_lt.2 hx)]
  by_cases h0 : x = 0
  · rw [if_pos h0]
  · rw [if_neg h0]
    exact roundDpos_nonneg (lt_of_le_of_ne hx (Ne.symm h0))

/-- Binary64 rounding is monotone (the fact underlying monotonicity of the
margin bound in the margin percent). -/
theorem roundD_mono {x y : ℚ} (h : x ≤ y) : roundD x ≤ roundD y := by
  by_cases hx : x < 0
  · by_cases hy : y < 0
    · unfold roundD
      rw [if_pos hx, if_pos hy]
      exact neg_le_neg (roundDpos_mono (by linarith) (by linarith))
    · exact le_trans (roundD_nonpos_of_neg hx) (roundD_nonneg_of_nonneg (not_lt.1 hy))
  · have hx0 : 0 ≤ x := not_lt.1 hx
    have hy0 : 0 ≤ y := le_trans hx0 h
    by_cases hx0e : x = 0
    · rw [hx0e, roundD_zero]
      exact roundD_nonneg_of_nonneg hy0
    · have hxp : 0 < x := lt_of_le_of_ne hx0 (Ne.symm hx0e)
      have hyp : 0 < y := lt_of_lt_of_le hxp h
      unfold roundD
      rw [if_neg (not_lt.2 hx0), if_neg hx0e, if_neg (not_lt.2 hy0), if_neg (ne_of_gt hyp)]
      exact roundDpos_mono hxp h

/-- Binary64 rounding is exact on positive integers up to `2 ^ 53`. -/
theorem roundDpos_int_small {n : ℤ} (h0 : 0 < n) (h : n ≤ 2 ^ 53) :
    roundDpos (n : ℚ) = n := by
  have hq : (0:ℚ) < (n:ℚ) := by exact_mod_cast h0
  obtain ⟨hl, hu⟩ := qexp_spec hq
  have he0 : 0 ≤ qexp (n:ℚ) := by
    by_contra hneg
    push_neg at hneg
    have h1 : (2:ℚ) ^ (qexp (n:ℚ) + 1) ≤ 2 ^ (0:ℤ) :=
      zpow_le_zpow_right₀ (by norm_num) (by omega)
    have h2 : (1:ℚ) ≤ (n:ℚ) := by exact_mod_cast h0
    rw [zpow_zero] at h1
    linarith
  have he53 : qexp (n:ℚ) ≤ 53 := by
    by_contra hgt
    push_neg at hgt
    have h1 : (2:ℚ) ^ (54:ℤ) ≤ 2 ^ qexp (n:ℚ) :=
      zpow_le_zpow_right₀ (by norm_num) (by omega)
    have h2 : ((n:ℚ)) ≤ (2:ℚ) ^ (53:ℤ) := by
      rw [show (2:ℚ) ^ (53:ℤ) = ((2 ^ 53 : ℤ) : ℚ) by norm_num]
      exact_mod_cast h
    have h3 : (2:ℚ) ^ (53:ℤ) < 2 ^ (54:ℤ) :=
      zpow_lt_zpow_right₀ (by norm_num) (by norm_num)
    linarith
  rcases lt_or_eq_of_le he53 with hlt | heq
  · have hk : ((52:ℤ) - qexp (n:ℚ)) = ((52 - qexp (n:ℚ)).toNat : ℤ) :=
      (Int.toNat_of_nonneg (by omega)).symm
    have harg : (n:ℚ) * 2 ^ ((52:ℤ) - qexp (n:ℚ)) =
        ((n * 2 ^ (52 - qexp (n:ℚ)).toNat : ℤ) : ℚ) := by
      rw [Int.cast_mul, Int.cast_pow, show ((2:ℤ):ℚ) = 2 by norm_num,
        hk, zpow_natCast, Int.toNat_natCast]
    unfold roundDpos
    show (rne ((n:ℚ) * 2 ^ ((52:ℤ) - qexp (n:ℚ))) : ℚ) * 2 ^ (qexp (n:ℚ) - (52:ℤ)) = (n:ℚ)
    rw [harg, rne_intCast]
    rw [Int.cast_mul, Int.cast_pow, show ((2:ℤ):ℚ) = 2 by norm_num,
      ← zpow_natCast (2:ℚ) ((52 - qexp (n:ℚ)).toNat), ← hk]
    rw [mul_assoc, ← zpow_add₀ (two_ne_zero : (2:ℚ) ≠ 0)]
    rw [show (52:ℤ) - qexp (n:ℚ) + (qexp (n:ℚ) - 52) = 0 by ring, zpow_zero, mul_one]
  · have hn : n = 2 ^ 53 := by
      have h1 : ((2 ^ 53 : ℤ) : ℚ) ≤ (n:ℚ) := by
        rw [show ((2 ^ 53 : ℤ) : ℚ) = (2:ℚ) ^ (53:ℤ) by norm_num, ← heq]
        exact hl
      exact le_antisymm h (by exact_mod_cast h1)
    unfold roundDpos
    show (rne ((n:ℚ) * 2 ^ ((52:ℤ) - qexp (n:ℚ))) : ℚ) * 2 ^ (qexp (n:ℚ) - (52:ℤ)) = (n:ℚ)
    rw [heq, hn]
    rw [show (52:ℤ) - 53 = -1 by norm_num, show (53:ℤ) - 52 = 1 by norm_num,
      zpow_neg_one, zpow_one]
    rw [show ((2 ^ 53 : ℤ) : ℚ) * (2:ℚ)⁻¹ = ((2 ^ 52 : ℤ) : ℚ) by norm_num,
      rne_intCast]
    norm_num

/-- `roundD` is exact on positive integers up to `2 ^ 53`. -/
theorem roundD_int_small {n : ℤ} (h0 : 0 < n) (h : n ≤ 2 ^ 53) :
    roundD (n : ℚ) = n := by
  have hq : (0:ℚ) < (n:ℚ) := by exact_mod_cast h0
  unfold roundD
  rw [if_neg (not_lt.2 hq.le), if_neg (by exact_mod_cast h0.ne' : ¬((n:ℚ) = 0))]
  exact roundDpos_int_small h0 h

/-- `roundD 1 = 1`. -/
theorem roundD_one : roundD 1 = 1 := by
  have := roundD_int_small (n := 1) (by norm_num) (by norm_num)
  simpa using this

/-- `insertLe` permutes its input. -/
theorem insertLe_perm (le : α → α → Bool) (x : α) (l : List α) :
    List.Perm (insertLe le x l) (x :: l) := by
  induction l with
  | nil => exact List.Perm.refl _
  | cons y ys ih =>
    unfold insertLe
    by_cases hc : le x y
    · rw [if_pos hc]
    · rw [if_neg hc]
      exact (ih.cons y).trans (List.Perm.swap x y ys)

/-- `stableSort` permutes its input. -/
theorem stableSort_perm (le : α → α → Bool) (l : List α) :
    List.Perm (stableSort le l) l := by
  induction l with
  | nil => exact List.Perm.refl _
  | cons x xs ih => exact (insertLe_perm le x _).trans (ih.cons x)

/-- Membership is preserved by `stableSort`. -/
theorem mem_stableSort (le : α → α → Bool) {x : α} {l : List α} :
    x ∈ stableSort le l ↔ x ∈ l :=
  (stableSort_perm le l).mem_iff

/-- `insertLe` preserves sortedness for a transitive and total comparison. -/
theorem insertLe_pairwise (le : α → α → Bool)
    (htrans : ∀ a b c, le a b = true → le b c = true → le a c = true)
    (htotal : ∀ a b, le a b = true ∨ le b a = true)
    (x : α) {l : List α} (h : l.Pairwise (le · · = true)) :
    (insertLe le x l).Pairwise (le · · = true) := by
  induction l with
  | nil => simp [insertLe]
  | cons y ys ih =>
    unfold insertLe
    rcases List.pairwise_cons.1 h with ⟨hy, hys⟩
    by_cases hc : le x y
    · rw [if_pos hc]
      refine List.pairwise_cons.2 ⟨?_, h⟩
      intro b hb
      rcases hb with _ | hb
      · exact hc
      · exact htrans x y b hc (hy _ (by assumption))
    · rw [if_neg hc]
      have hyx : le y x = true := by
        rcases htotal x y with h1 | h1
        · exact absurd h1 hc
        · exact h1
      refine List.pairwise_cons.2 ⟨?_, ih hys⟩
      intro b hb
      rw [(insertLe_perm le x ys).mem_iff] at hb
      rcases hb with _ | hb
      · exact hyx
      · exact hy _ (by assumption)

/-- `stableSort` sorts with respect to a transitive and total comparison. -/
theorem stableSort_pairwise (le : α → α → Bool)
    (htrans : ∀ a b c, le a b = true → le b c = true → le a c = true)
    (htotal : ∀ a b, le a b = true ∨ le b a = true)
    (l : List α) : (stableSort le l).Pairwise (le · · = true) := by
  induction l with
  | nil => simp [stableSort]
  | cons x xs ih => exact insertLe_pairwise le htrans htotal x ih

/-- Membership in `knownTimes`: the pair `(i, t)` is collected exactly when
candidate `i` exists and its summary carries travel time `t`. -/
theorem mem_knownTimes {rd : List RouteCandidate} {i : ℕ} {t : ℤ} :
    (i, t) ∈ knownTimes rd ↔
      ∃ r, rd[i]? = some r ∧
        (r.summary.getD ⟨none, none⟩).travelTimeInSeconds = some t := by
  unfold knownTimes
  rw [List.mem_filterMap]
  constructor
  · rintro ⟨⟨j, r⟩, hmem, hf⟩
    obtain ⟨t', ht', heq⟩ := Option.map_eq_some'.1 hf
    obtain ⟨rfl, rfl⟩ := Prod.mk.inj heq
    exact ⟨r, List.mk_mem_enum_iff_getElem?.1 hmem, ht'⟩
  · rintro ⟨r, hr, ht⟩
    exact ⟨(i, r), List.mk_mem_enum_iff_getElem?.2 hr, by simp [ht]⟩

/-- An index with a known time is in range. -/
theorem mem_knownTimes_lt {rd : List RouteCandidate} {i : ℕ} {t : ℤ}
    (h : (i, t) ∈ knownTimes rd) : i < rd.length := by
  obtain ⟨r, hr, _⟩ := mem_knownTimes.1 h
  exact (List.getElem?_eq_some.1 hr).1

/-- C1.  The spec's persisted output schema promises `main_roads`,
`alternatives_within_margin` and `traffic_notes` columns, and
`fetch_route_estimates` does assign those attributes — but the
`TrafficRoute` model and the `init_db` migrations declare no such columns,
so the assigned values are plain Python instance attributes that are never
persisted. -/
theorem C1_missing_columns :
    ("main_roads" ∈ fetchRouteEstimatesAssignedAttrs ∧
     "alternatives_within_margin" ∈ fetchRouteEstimatesAssignedAttrs ∧
     "traffic_notes" ∈ fetchRouteEstimatesAssignedAttrs) ∧
    ("main_roads" ∉ trafficRouteColumns ++ trafficRouteMigrationColumns ∧
     "alternatives_within_margin" ∉ trafficRouteColumns ++ trafficRouteMigrationColumns ∧
     "traffic_notes" ∉ trafficRouteColumns ++ trafficRouteMigrationColumns) := by
  decide

/-- C4.  With no settings row, `get_active_traffic_settings` produces the
clamped defaults (3, 15); but whenever a `UserSettings` row exists, the
access `settings.traffic_options` raises `AttributeError` because the model
declares no such column, so no clamped value is ever returned. -/
theorem C4_attribute_error :
    get_active_traffic_settings_options none =
      .ok ⟨some 3, some 15⟩ ∧
    "traffic_options" ∉ userSettingsColumns ∧
    ∀ row : UserSettingsObj,
      get_active_traffic_settings_options (some row) =
        .error "AttributeError: traffic_options" :=
  ⟨rfl, by decide, fun _ => rfl⟩

/-- C6.  The comparison in `routes_within_time_margin` is `<=`, but the
bound `fastest * (1 + 15 / 100.0)` is computed in binary64: for
`fastest = 660` it evaluates to `758.9999999999999` (exactly
`6676234603855871 / 2^43`), so the candidate at exactly
`660 * 1.15 = 759` seconds is excluded, contradicting the documented
inclusive boundary. -/
theorem C6_boundary_excluded :
    routes_within_time_margin
      [⟨some ⟨some 660, some 0⟩, []⟩, ⟨some ⟨some 759, some 0⟩, []⟩] 15 = [0] ∧
    roundD (roundD ((660:ℤ) : ℚ) * roundD (1 + roundD (roundD ((15:ℤ) : ℚ) / 100))) =
      6676234603855871 / 8796093022208 ∧
    ((759:ℚ) = ((660:ℤ) : ℚ) * (115 / 100)) := by
  refine ⟨by decide, by decide, by norm_num⟩

/-- C2 counterexample.  When the provider's first candidate (660 s) is
slower than its second (600 s) and both are viable, the sorted output's
first entry carries `route_num = 2` and the second `route_num = 1`:
`route_num` is assigned before the final sort, not after it. -/
theorem C2_counterexample :
    (aggregate_main_roads
        [⟨some ⟨some 660, some 0⟩, []⟩, ⟨some ⟨some 600, some 0⟩, []⟩]
        [0, 1] none none).map
      (fun e => (e.travel_time_min, e.route_num)) = [(10, 2), (11, 1)] := by
  decide

/-- C3 counterexample.  Two viable alternatives whose extracted road sets
are both exactly `{"Main St"}`: the common road "Main St" appears in every
returned entry's `key_roads` (the `roads[:2]` fallback fires because no
unique road exists). -/
theorem C3_counterexample :
    (aggregate_main_roads
        [⟨some ⟨some 600, some 0⟩,
          [⟨some "IMPORTANT_ROAD_STRETCH", some 0, some 50, some (.plain "Main St"), []⟩]⟩,
         ⟨some ⟨some 650, some 0⟩,
          [⟨some "IMPORTANT_ROAD_STRETCH", some 0, some 50, some (.plain "Main St"), []⟩]⟩]
        [0, 1] none none).map RouteAlt.key_roads = [["Main St"], ["Main St"]] ∧
    (routesInfoOf
        [⟨some ⟨some 600, some 0⟩,
          [⟨some "IMPORTANT_ROAD_STRETCH", some 0, some 50, some (.plain "Main St"), []⟩]⟩,
         ⟨some ⟨some 650, some 0⟩,
          [⟨some "IMPORTANT_ROAD_STRETCH", some 0, some 50, some (.plain "Main St"), []⟩]⟩]
        [0, 1]).map RouteInfo.road_set = [["main st"], ["main st"]] := by
  constructor
  · decide
  · decide

/-- C5 counterexample.  With a negative fastest time the function returns
every index (`fastest <= 0` branch), not just the minimum ties: at margin
0 the list `[-5 s, 100 s]` yields `[0, 1]` although only index 0 attains
the minimum. -/
theorem C5_counterexample :
    routes_within_time_margin
      [⟨some ⟨some (-5), some 0⟩, []⟩, ⟨some ⟨some 100, some 0⟩, []⟩] 0 = [0, 1] ∧
    knownTimes [⟨some ⟨some (-5), some 0⟩, []⟩, ⟨some ⟨some 100, some 0⟩, []⟩] =
      [(0, -5), (1, 100)] := by
  constructor
  · decide
  · decide

/-- C8.  The persisted durations derive from the first candidate:
`travelTimeInSeconds = 1500, trafficDelayInSeconds = 300` yields
`current = 25, typical = 20, delay = 5`; `"1,1"` and `"2,2"` are
classified as coordinates; the three duration fields are real columns of
`TrafficRoute`; and in general `typical = current - delay`. -/
theorem C8_durations :
    is_coordinates "1,1" = true ∧
    is_coordinates "2,2" = true ∧
    routeEstimateDurations [⟨some ⟨some 1500, some 300⟩, []⟩] = some ⟨25, 20, 5⟩ ∧
    ("current_duration_minutes" ∈ trafficRouteColumns ∧
     "typical_duration_minutes" ∈ trafficRouteColumns ∧
     "delay_minutes" ∈ trafficRouteColumns) ∧
    ∀ rd f, routeEstimateDurations rd = some f →
      f.typical_duration_minutes = f.current_duration_minutes - f.delay_minutes := by
  refine ⟨by decide, by decide, by decide, by decide, ?_⟩
  intro rd f h
  cases rd with
  | nil => exact absurd h (by simp [routeEstimateDurations])
  | cons r0 rest =>
    simp only [routeEstimateDurations, Option.some.injEq] at h
    rw [← h]

/-- C8 witness. -/
theorem C8_durations_witness :
    ∃ f, routeEstimateDurations [⟨some ⟨some 1500, some 300⟩, []⟩] = some f ∧
      f.typical_duration_minutes = f.current_duration_minutes - f.delay_minutes :=
  ⟨⟨25, 20, 5⟩, C8_durations.2.2.1,
    C8_durations.2.2.2.2 [⟨some ⟨some 1500, some 300⟩, []⟩] ⟨25, 20, 5⟩ C8_durations.2.2.1⟩

/-- C9.  A truthy stored zone is never replaced by the per-route update:
whatever the zone lookups return, `applyRouteUpdate` keeps the stored
`origin_zone` and `dest_zone` unchanged (the lookup result is written only
into a falsy zone field). -/
theorem C9_zone_preserved (route : RouteObjState)
    (cur typ delay : ℤ) (mr : List RouteAlt) (alt : ℤ) (now : ℕ)
    (olat olon dlat dlon : Option ℚ) (zo zd : Option String) (notes : String) :
    (pyTruthyStr route.origin_zone = true →
      (applyRouteUpdate route cur typ delay mr alt now olat olon dlat dlon zo zd
        notes).origin_zone = route.origin_zone) ∧
    (pyTruthyStr route.dest_zone = true →
      (applyRouteUpdate route cur typ delay mr alt now olat olon dlat dlon zo zd
        notes).dest_zone = route.dest_zone) := by
  constructor
  · intro h
    simp [applyRouteUpdate, h]
  · intro h
    simp [applyRouteUpdate, h]

/-- C9 witness: a route whose zones are both set keeps them verbatim. -/
theorem C9_zone_preserved_witness :
    (applyRouteUpdate
      ⟨"Home", "1,1", "2,2", none, none, none, none, none, none, none, none,
        none, some "MAZ005", some "MAZ014", none, 0⟩
      25 20 5 [] 1 7 (some 1) (some 1) (some 2) (some 2)
      (some "MAZ999") (some "MAZ998") "Clear conditions").origin_zone = some "MAZ005" ∧
    (applyRouteUpdate
      ⟨"Home", "1,1", "2,2", none, none, none, none, none, none, none, none,
        none, some "MAZ005", some "MAZ014", none, 0⟩
      25 20 5 [] 1 7 (some 1) (some 1) (some 2) (some 2)
      (some "MAZ999") (some "MAZ998") "Clear conditions").dest_zone = some "MAZ014" :=
  ⟨(C9_zone_preserved _ _ _ _ _ _ _ _ _ _ _ _ _ _).1 (by decide),
   (C9_zone_preserved _ _ _ _ _ _ _ _ _ _ _ _ _ _).2 (by decide)⟩

/-- The comparison used to sort `(index, time)` pairs is transitive. -/
theorem timeLe_trans : ∀ a b c : ℕ × ℤ,
    decide (a.2 ≤ b.2) = true → decide (b.2 ≤ c.2) = true →
    decide (a.2 ≤ c.2) = true := by
  intro a b c h1 h2
  simp only [decide_eq_true_iff] at h1 h2 ⊢
  omega

/-- The comparison used to sort `(index, time)` pairs is total. -/
theorem timeLe_total : ∀ a b : ℕ × ℤ,
    decide (a.2 ≤ b.2) = true ∨ decide (b.2 ≤ a.2) = true := by
  intro a b
  rcases le_total a.2 b.2 with h | h
  · exact Or.inl (decide_eq_true h)
  · exact Or.inr (decide_eq_true h)

/-- `fastestOf` is the minimum of the known travel times. -/
theorem fastestOf_eq_min {rd : List RouteCandidate} {i0 : ℕ} {m : ℤ}
    (hex : (i0, m) ∈ knownTimes rd)
    (hmin : ∀ pr ∈ knownTimes rd, m ≤ pr.2) :
    fastestOf rd = m := by
  unfold fastestOf
  have hperm := stableSort_perm (fun a b : ℕ × ℤ => decide (a.2 ≤ b.2)) (knownTimes rd)
  have hsorted := stableSort_pairwise (fun a b : ℕ × ℤ => decide (a.2 ≤ b.2))
    timeLe_trans timeLe_total (knownTimes rd)
  have hne : stableSort (fun a b : ℕ × ℤ => decide (a.2 ≤ b.2)) (knownTimes rd) ≠ [] := by
    intro h
    rw [h] at hperm
    exact List.ne_nil_of_mem hex hperm.nil_eq.symm
  obtain ⟨h, tl, hstl⟩ := List.exists_cons_of_ne_nil hne
  rw [hstl, List.headD_cons]
  have hh_mem : h ∈ knownTimes rd := hperm.mem_iff.1 (hstl ▸ List.mem_cons_self h tl)
  have h_le : m ≤ h.2 := hmin h hh_mem
  have h_ge : h.2 ≤ m := by
    have hm_sorted : (i0, m) ∈ stableSort (fun a b : ℕ × ℤ => decide (a.2 ≤ b.2))
        (knownTimes rd) := hperm.mem_iff.2 hex
    rw [hstl] at hm_sorted
    rcases List.mem_cons.1 hm_sorted with heq | htl
    · rw [← heq]
    · have hp := (List.pairwise_cons.1 (hstl ▸ hsorted)).1 (i0, m) htl
      simpa using hp
  omega

/-- The binary64 margin bound is monotone in the margin percent. -/
theorem maxSecOf_mono {rd : List RouteCandidate} (hf : 0 < fastestOf rd)
    {p q : ℤ} (hpq : p ≤ q) : maxSecOf rd p ≤ maxSecOf rd q := by
  unfold maxSecOf
  apply roundD_mono
  apply mul_le_mul_of_nonneg_left _ (roundD_nonneg_of_nonneg (by exact_mod_cast hf.le))
  apply roundD_mono
  apply add_le_add_left
  apply roundD_mono
  rw [div_eq_mul_inv, div_eq_mul_inv]
  apply mul_le_mul_of_nonneg_right _ (by norm_num)
  apply roundD_mono
  exact_mod_cast hpq

/-- C7.  For a fixed candidate list, the set of indices returned by
`routes_within_time_margin` is monotonically non-decreasing in the margin
percent: every index included at margin `p ≤ q` is included at margin `q`. -/
theorem C7_margin_monotone (rd : List RouteCandidate) (p q : ℤ) (hpq : p ≤ q) :
    ∀ i ∈ routes_within_time_margin rd p, i ∈ routes_within_time_margin rd q := by
  intro i hi
  unfold routes_within_time_margin at hi ⊢
  by_cases h1 : rd.isEmpty = true
  · rw [if_pos h1] at hi
    exact absurd hi (List.not_mem_nil i)
  · rw [if_neg h1] at hi ⊢
    by_cases h2 : (knownTimes rd).isEmpty = true
    · rw [if_pos h2] at hi ⊢
      exact hi
    · rw [if_neg h2] at hi ⊢
      by_cases h3 : fastestOf rd ≤ 0
      · rw [if_pos h3] at hi ⊢
        exact hi
      · rw [if_neg h3] at hi ⊢
        rw [List.mem_filter] at hi ⊢
        refine ⟨hi.1, ?_⟩
        obtain ⟨pr, hpr, hcond⟩ := List.any_eq_true.1 hi.2
        rw [Bool.and_eq_true] at hcond
        refine List.any_eq_true.2 ⟨pr, hpr, ?_⟩
        rw [Bool.and_eq_true]
        refine ⟨hcond.1, decide_eq_true ?_⟩
        exact le_trans (of_decide_eq_true hcond.2)
          (maxSecOf_mono (by omega) hpq)

/-- C7 witness: index 1 survives at margin 0 on a tied pair and still
survives at margin 15. -/
theorem C7_margin_monotone_witness :
    (0:ℤ) ≤ 15 ∧
    1 ∈ routes_within_time_margin
      [⟨some ⟨some 600, some 0⟩, []⟩, ⟨some ⟨some 600, some 0⟩, []⟩] 15 :=
  ⟨by norm_num,
   C7_margin_monotone
     [⟨some ⟨some 600, some 0⟩, []⟩, ⟨some ⟨some 600, some 0⟩, []⟩]
     0 15 (by norm_num) 1 (by decide)⟩

/-- C5 (amended).  When at least one candidate has a known travel time and
the minimum known time `m` is positive and at most `2 ^ 53`, margin 0
returns exactly the indices whose travel time equals `m`. -/
theorem C5_margin_zero (rd : List RouteCandidate) (i0 : ℕ) (m : ℤ)
    (hex : (i0, m) ∈ knownTimes rd)
    (hmin : ∀ pr ∈ knownTimes rd, m ≤ pr.2)
    (hpos : 0 < m) (hbound : m ≤ 2 ^ 53) :
    ∀ i, i ∈ routes_within_time_margin rd 0 ↔ (i, m) ∈ knownTimes rd := by
  have hne2 : knownTimes rd ≠ [] := List.ne_nil_of_mem hex
  have h2 : ¬((knownTimes rd).isEmpty = true) := by
    simpa [List.isEmpty_iff] using hne2
  have hne1 : rd ≠ [] := by
    intro h
    subst h
    exact hne2 rfl
  have h1 : ¬(rd.isEmpty = true) := by
    simpa [List.isEmpty_iff] using hne1
  have hfast : fastestOf rd = m := fastestOf_eq_min hex hmin
  have h3 : ¬(fastestOf rd ≤ 0) := by omega
  have hmax : maxSecOf rd 0 = (m : ℚ) := by
    unfold maxSecOf
    rw [hfast, Int.cast_zero, roundD_zero, zero_div, roundD_zero, add_zero,
      roundD_one, roundD_int_small hpos hbound, mul_one,
      roundD_int_small hpos hbound]
  intro i
  unfold routes_within_time_margin
  rw [if_neg h1, if_neg h2, if_neg h3]
  rw [List.mem_filter]
  constructor
  · rintro ⟨_, hany⟩
    obtain ⟨pr, hpr, hcond⟩ := List.any_eq_true.1 hany
    rw [Bool.and_eq_true] at hcond
    have heqi : pr.1 = i := by simpa using hcond.1
    have hle : (pr.2 : ℚ) ≤ maxSecOf rd 0 := of_decide_eq_true hcond.2
    rw [hmax] at hle
    have hle2 : pr.2 ≤ m := by exact_mod_cast hle
    have heqm : pr.2 = m := le_antisymm hle2 (hmin pr hpr)
    have : pr = (i, m) := by
      cases pr
      simp_all
    rwa [this] at hpr
  · intro hmem
    refine ⟨List.mem_range.2 (mem_knownTimes_lt hmem), ?_⟩
    refine List.any_eq_true.2 ⟨(i, m), hmem, ?_⟩
    rw [Bool.and_eq_true]
    refine ⟨by simp, decide_eq_true ?_⟩
    rw [hmax]

/-- C5 witness: on times `[600, 600, 800]`, margin 0 keeps exactly the two
indices tied at the minimum. -/
theorem C5_margin_zero_witness :
    (1 ∈ routes_within_time_margin
      [⟨some ⟨some 600, some 0⟩, []⟩, ⟨some ⟨some 600, some 0⟩, []⟩,
       ⟨some ⟨some 800, some 0⟩, []⟩] 0 ↔
      (1, 600) ∈ knownTimes
        [⟨some ⟨some 600, some 0⟩, []⟩, ⟨some ⟨some 600, some 0⟩, []⟩,
         ⟨some ⟨some 800, some 0⟩, []⟩]) ∧
    (2 ∈ routes_within_time_margin
      [⟨some ⟨some 600, some 0⟩, []⟩, ⟨some ⟨some 600, some 0⟩, []⟩,
       ⟨some ⟨some 800, some 0⟩, []⟩] 0 ↔
      (2, 600) ∈ knownTimes
        [⟨some ⟨some 600, some 0⟩, []⟩, ⟨some ⟨some 600, some 0⟩, []⟩,
         ⟨some ⟨some 800, some 0⟩, []⟩]) :=
  ⟨C5_margin_zero
      [⟨some ⟨some 600, some 0⟩, []⟩, ⟨some ⟨some 600, some 0⟩, []⟩,
       ⟨some ⟨some 800, some 0⟩, []⟩] 0 600 (by decide) (by decide)
      (by norm_num) (by norm_num) 1,
   C5_margin_zero
      [⟨some ⟨some 600, some 0⟩, []⟩, ⟨some ⟨some 600, some 0⟩, []⟩,
       ⟨some ⟨some 800, some 0⟩, []⟩] 0 600 (by decide) (by decide)
      (by norm_num) (by norm_num) 2⟩

/-- The pre-sort `route_num` of an entry is its 1-based enumeration index. -/
theorem buildEntry_route_num (m : ℤ) (c : List String) (n : Option String)
    (p : ℕ × RouteInfo) : (buildEntry m c n p).route_num = (p.1 : ℤ) + 1 := rfl

/-- The `key_roads` of an entry: first 2 unique roads, else first 2 own roads. -/
theorem buildEntry_key_roads (m : ℤ) (c : List String) (n : Option String)
    (p : ℕ × RouteInfo) :
    (buildEntry m c n p).key_roads =
      if (p.2.roads.filter fun name => ¬ c.contains (pyLower name)) ≠ []
      then (p.2.roads.filter fun name => ¬ c.contains (pyLower name)).take 2
      else p.2.roads.take 2 := rfl

/-- The `travel_time_min` of an entry is the alternative's rounded time. -/
theorem buildEntry_travel_time (m : ℤ) (c : List String) (n : Option String)
    (p : ℕ × RouteInfo) :
    (buildEntry m c n p).travel_time_min = p.2.travel_time_min := rfl

/-- Route numbers of the pre-sort entries are `1, 2, ..., n` in order. -/
theorem buildEntries_map_route_num (info : List RouteInfo) (m : ℤ)
    (c : List String) (n : Option String) :
    (buildEntries info m c n).map RouteAlt.route_num
      = (List.range info.length).map (fun k : ℕ => (k : ℤ) + 1) := by
  apply List.ext_getElem
  · simp only [List.length_map, buildEntries, List.enum_length, List.length_range]
  · intro i h1 h2
    simp only [List.getElem_map, List.getElem_range, buildEntries, List.getElem_enum,
      buildEntry_route_num]

/-- Length of the pre-sort entry list. -/
theorem buildEntries_length (info : List RouteInfo) (m : ℤ)
    (c : List String) (n : Option String) :
    (buildEntries info m c n).length = info.length := by
  unfold buildEntries
  rw [List.length_map, List.enum_length]

/-- C2 (amended).  The output of `aggregate_main_roads` is sorted ascending
by `travel_time_min`, and its `route_num` fields are a permutation of
`1, ..., n` — they are assigned from the pre-sort processing order of the
viable indices, not from the post-sort position. -/
theorem C2_sorted_route_num (rd : List RouteCandidate) (idxs : List ℕ)
    (d : Option ℤ) (notes : Option String) :
    (aggregate_main_roads rd idxs d notes).Pairwise
      (fun a b => a.travel_time_min ≤ b.travel_time_min) ∧
    List.Perm ((aggregate_main_roads rd idxs d notes).map RouteAlt.route_num)
      ((List.range (aggregate_main_roads rd idxs d notes).length).map
        (fun k : ℕ => (k : ℤ) + 1)) := by
  unfold aggregate_main_roads
  by_cases hlen : idxs.length = 0
  · rw [if_pos hlen]
    exact ⟨List.Pairwise.nil, by simp⟩
  · rw [if_neg hlen]
    by_cases hinfo : (routesInfoOf rd idxs).isEmpty = true
    · rw [if_pos hinfo]
      exact ⟨List.Pairwise.nil, by simp⟩
    · rw [if_neg hinfo]
      constructor
      · have hp := stableSort_pairwise
          (fun a b : RouteAlt => decide (a.travel_time_min ≤ b.travel_time_min))
          (by intro a b c h1 h2
              simp only [decide_eq_true_iff] at h1 h2 ⊢
              omega)
          (by intro a b
              rcases le_total a.travel_time_min b.travel_time_min with h | h
              · exact Or.inl (decide_eq_true h)
              · exact Or.inr (decide_eq_true h))
          (buildEntries (routesInfoOf rd idxs) (minTimeOf (routesInfoOf rd idxs))
            (commonRoadsOf (routesInfoOf rd idxs)) notes)
        exact hp.imp fun h => of_decide_eq_true h
      · have hperm := (stableSort_perm
          (fun a b : RouteAlt => decide (a.travel_time_min ≤ b.travel_time_min))
          (buildEntries (routesInfoOf rd idxs) (minTimeOf (routesInfoOf rd idxs))
            (commonRoadsOf (routesInfoOf rd idxs)) notes))
        have hlen2 := hperm.length_eq
        rw [hlen2, buildEntries_length]
        refine (hperm.map RouteAlt.route_num).trans ?_
        rw [buildEntries_map_route_num]

/-- C3 (amended).  Every returned entry's `key_roads` either contains no
road common to all surviving alternatives, or — when that alternative has
no distinguishing road at all — falls back to the first 2 of its own roads,
all of which are common. -/
theorem C3_key_roads (rd : List RouteCandidate) (idxs : List ℕ)
    (d : Option ℤ) (notes : Option String) :
    ∀ e ∈ aggregate_main_roads rd idxs d notes,
      (∀ road ∈ e.key_roads,
        ¬ (commonRoadsOf (routesInfoOf rd idxs)).contains (pyLower road) = true) ∨
      (∃ info ∈ routesInfoOf rd idxs,
        e.key_roads = info.roads.take 2 ∧
        ∀ road ∈ info.roads,
          (commonRoadsOf (routesInfoOf rd idxs)).contains (pyLower road) = true) := by
  intro e he
  unfold aggregate_main_roads at he
  split_ifs at he with h1 h2
  · exact absurd he (List.not_mem_nil e)
  · exact absurd he (List.not_mem_nil e)
  · rw [mem_stableSort] at he
    unfold buildEntries at he
    rw [List.mem_map] at he
    obtain ⟨p, hp, hfe⟩ := he
    have hp2 : p.2 ∈ routesInfoOf rd idxs := by
      have : (p.1, p.2) ∈ (routesInfoOf rd idxs).enum := by
        simpa using hp
      exact List.getElem?_mem (List.mk_mem_enum_iff_getElem?.1 this)
    by_cases hu :
        (p.2.roads.filter fun name =>
          ¬ (commonRoadsOf (routesInfoOf rd idxs)).contains (pyLower name)) = []
    · refine Or.inr ⟨p.2, hp2, ?_, ?_⟩
      · rw [← hfe, buildEntry_key_roads, if_neg (by simpa using hu)]
      · intro road hroad
        by_contra hnc
        have : road ∈ (p.2.roads.filter fun name =>
            ¬ (commonRoadsOf (routesInfoOf rd idxs)).contains (pyLower name)) := by
          rw [List.mem_filter]
          exact ⟨hroad, by simpa using hnc⟩
        rw [hu] at this
        exact List.not_mem_nil road this
    · refine Or.inl ?_
      intro road hroad
      rw [← hfe, buildEntry_key_roads, if_pos (by simpa using hu)] at hroad
      have hmem := List.mem_of_mem_take hroad
      rw [List.mem_filter] at hmem
      simpa using hmem.2

/-- C3 witness, at the repository's own two-route test scenario: the fastest
route's `key_roads` is `["Rt 125"]`, which contains no common road. -/
theorem C3_key_roads_witness :
    (∀ road ∈ (⟨1, 10, 1, true, 0, ["Rt 125"], none⟩ : RouteAlt).key_roads,
      ¬ (commonRoadsOf (routesInfoOf
          [⟨some ⟨some 600, some 60⟩,
            [⟨some "IMPORTANT_ROAD_STRETCH", some 0, some 50, some (.plain "Main St"), []⟩,
             ⟨some "IMPORTANT_ROAD_STRETCH", some 50, some 100, none, [.structured "Rt 125"]⟩]⟩,
           ⟨some ⟨some 650, some 0⟩,
            [⟨some "IMPORTANT_ROAD_STRETCH", some 0, some 60, some (.plain "Main St"), []⟩]⟩]
          [0, 1])).contains (pyLower road) = true) ∨
    (∃ info ∈ routesInfoOf
          [⟨some ⟨some 600, some 60⟩,
            [⟨some "IMPORTANT_ROAD_STRETCH", some 0, some 50, some (.plain "Main St"), []⟩,
             ⟨some "IMPORTANT_ROAD_STRETCH", some 50, some 100, none, [.structured "Rt 125"]⟩]⟩,
           ⟨some ⟨some 650, some 0⟩,
            [⟨some "IMPORTANT_ROAD_STRETCH", some 0, some 60, some (.plain "Main St"), []⟩]⟩]
          [0, 1],
        (⟨1, 10, 1, true, 0, ["Rt 125"], none⟩ : RouteAlt).key_roads = info.roads.take 2 ∧
        ∀ road ∈ info.roads,
          (commonRoadsOf (routesInfoOf
            [⟨some ⟨some 600, some 60⟩,
              [⟨some "IMPORTANT_ROAD_STRETCH", some 0, some 50, some (.plain "Main St"), []⟩,
               ⟨some "IMPORTANT_ROAD_STRETCH", some 50, some 100, none, [.structured "Rt 125"]⟩]⟩,
             ⟨some ⟨some 650, some 0⟩,
              [⟨some "IMPORTANT_ROAD_STRETCH", some 0, some 60, some (.plain "Main St"), []⟩]⟩]
            [0, 1])).contains (pyLower road) = true) :=
  C3_key_roads
    [⟨some ⟨some 600, some 60⟩,
      [⟨some "IMPORTANT_ROAD_STRETCH", some 0, some 50, some (.plain "Main St"), []⟩,
       ⟨some "IMPORTANT_ROAD_STRETCH", some 50, some 100, none, [.structured "Rt 125"]⟩]⟩,
     ⟨some ⟨some 650, some 0⟩,
      [⟨some "IMPORTANT_ROAD_STRETCH", some 0, some 60, some (.plain "Main St"), []⟩]⟩]
    [0, 1] none none ⟨1, 10, 1, true, 0, ["Rt 125"], none⟩ (by decide)

/-- A list whose `headD ' '` equals a non-space character is a cons. -/
theorem headD_eq_cons {cs : List Char} {c : Char} (hne : c ≠ ' ')
    (h : cs.headD ' ' = c) : cs = c :: cs.tail := by
  cases cs with
  | nil => exact absurd h.symm hne
  | cons d t =>
    rw [List.headD_cons] at h
    subst h
    rfl

/-- `takeWhile` over a prefix that fully satisfies the predicate. -/
theorem takeWhile_append_of_all {p : α → Bool} {l : List α}
    (h : ∀ c ∈ l, p c = true) (r : List α) :
    (l ++ r).takeWhile p = l ++ r.takeWhile p := by
  induction l with
  | nil => simp
  | cons a t ih =>
    rw [List.cons_append, List.takeWhile_cons_of_pos (h a (List.mem_cons_self a t)),
      ih (fun c hc => h c (List.mem_cons_of_mem a hc)), List.cons_append]

/-- `dropWhile` over a prefix that fully satisfies the predicate. -/
theorem dropWhile_append_of_all {p : α → Bool} {l : List α}
    (h : ∀ c ∈ l, p c = true) (r : List α) :
    (l ++ r).dropWhile p = r.dropWhile p := by
  induction l with
  | nil => simp
  | cons a t ih =>
    rw [List.cons_append, List.dropWhile_cons_of_pos (h a (List.mem_cons_self a t)),
      ih (fun c hc => h c (List.mem_cons_of_mem a hc))]

/-- `takeWhile` of a fully satisfying list is the list itself. -/
theorem takeWhile_eq_self_of_all {p : α → Bool} {l : List α}
    (h : ∀ c ∈ l, p c = true) : l.takeWhile p = l := by
  have := takeWhile_append_of_all h []
  simpa using this

/-- `dropWhile` of a fully satisfying list is empty. -/
theorem dropWhile_eq_nil_of_all {p : α → Bool} {l : List α}
    (h : ∀ c ∈ l, p c = true) : l.dropWhile p = [] := by
  have := dropWhile_append_of_all h []
  simpa using this

/-- An ASCII digit is not whitespace, not a comma, not a sign, not a dot. -/
theorem digit_facts {c : Char} (h : c.isDigit = true) :
    isWsChar c = false ∧ c ≠ ',' ∧ c ≠ '+' ∧ c ≠ '-' ∧ c ≠ '.' := by
  have w1 : c ≠ ' ' := fun e => by rw [e] at h; exact absurd h (by decide)
  have w2 : c ≠ '\t' := fun e => by rw [e] at h; exact absurd h (by decide)
  have w3 : c ≠ '\n' := fun e => by rw [e] at h; exact absurd h (by decide)
  have w4 : c ≠ '\r' := fun e => by rw [e] at h; exact absurd h (by decide)
  have w5 : c ≠ '\x0b' := fun e => by rw [e] at h; exact absurd h (by decide)
  have w6 : c ≠ '\x0c' := fun e => by rw [e] at h; exact absurd h (by decide)
  refine ⟨?_, ?_, ?_, ?_, ?_⟩
  · simp only [isWsChar, Bool.or_eq_false_iff, beq_eq_false_iff_ne, ne_eq]
    exact ⟨⟨⟨⟨⟨w1, w2⟩, w3⟩, w4⟩, w5⟩, w6⟩
  · exact fun e => by rw [e] at h; exact absurd h (by decide)
  · exact fun e => by rw [e] at h; exact absurd h (by decide)
  · exact fun e => by rw [e] at h; exact absurd h (by decide)
  · exact fun e => by rw [e] at h; exact absurd h (by decide)

/-- Whitespace is not a comma. -/
theorem ws_ne_comma {c : Char} (h : isWsChar c = true) : c ≠ ',' := by
  rintro rfl
  exact absurd h (by decide)

/-- A stripped string decomposes the original into whitespace, core,
whitespace. -/
theorem pyStrip_decomp (cs : List Char) :
    ∃ w1 w2, cs = w1 ++ (pyStrip cs ++ w2) ∧
      (∀ c ∈ w1, isWsChar c = true) ∧ (∀ c ∈ w2, isWsChar c = true) := by
  refine ⟨cs.takeWhile isWsChar,
    ((cs.dropWhile isWsChar).reverse.takeWhile isWsChar).reverse, ?_, ?_, ?_⟩
  · conv_lhs => rw [← List.takeWhile_append_dropWhile (p := isWsChar) (l := cs)]
    congr 1
    conv_lhs => rw [← List.reverse_reverse (cs.dropWhile isWsChar)]
    conv_lhs =>
      rw [← List.takeWhile_append_dropWhile (p := isWsChar)
        (l := (cs.dropWhile isWsChar).reverse)]
    rw [List.reverse_append]
    rfl
  · intro c hc
    exact List.mem_takeWhile_imp hc
  · intro c hc
    rw [List.mem_reverse] at hc
    exact List.mem_takeWhile_imp hc

/-- Stripping whitespace off a whitespace-padded clean core recovers the
core. -/
theorem pyStrip_of_clean {w1 t w2 : List Char}
    (hw1 : ∀ c ∈ w1, isWsChar c = true) (hw2 : ∀ c ∈ w2, isWsChar c = true)
    (ht : ∀ c ∈ t, isWsChar c = false) (hne : t ≠ []) :
    pyStrip (w1 ++ (t ++ w2)) = t := by
  unfold pyStrip
  rw [dropWhile_append_of_all hw1]
  obtain ⟨c, t', rfl⟩ := List.exists_cons_of_ne_nil hne
  rw [List.cons_append,
    List.dropWhile_cons_of_neg (by simp [ht c (List.mem_cons_self c t')])]
  rw [show c :: (t' ++ w2) = (c :: t') ++ w2 from (List.cons_append c t' w2).symm]
  rw [List.reverse_append]
  rw [dropWhile_append_of_all (fun x hx => by
    rw [List.mem_reverse] at hx
    exact hw2 x hx)]
  have hrev_ne : (c :: t').reverse ≠ [] := by simp
  obtain ⟨d, r', hdr⟩ := List.exists_cons_of_ne_nil hrev_ne
  have hd_mem : d ∈ c :: t' := by
    rw [← List.mem_reverse, hdr]
    exact List.mem_cons_self d r'
  rw [hdr, List.dropWhile_cons_of_neg (by simp [ht d hd_mem]), ← hdr,
    List.reverse_reverse]

/-- `splitComma` never returns an empty list of parts. -/
theorem splitComma_ne_nil (l : List Char) : splitComma l ≠ [] := by
  induction l with
  | nil => simp [splitComma]
  | cons c rest ih =>
    unfold splitComma
    by_cases hc : c = ','
    · simp [hc]
    · rw [if_neg hc]
      rcases hsp : splitComma rest with _ | ⟨h, t⟩
      · exact absurd hsp ih
      · simp

/-- `splitComma` on a cons that is not a comma. -/
theorem splitComma_cons_of_ne {c : Char} (hc : c ≠ ',') (l : List Char) :
    splitComma (c :: l) = (c :: (splitComma l).headD []) :: (splitComma l).tail := by
  rcases hsp : splitComma l with _ | ⟨a, t⟩
  · exact absurd hsp (splitComma_ne_nil l)
  · conv_lhs => unfold splitComma
    rw [if_neg hc, hsp]
    simp

/-- `splitComma` across a comma-free prefix. -/
theorem splitComma_append_of_nocomma {l : List Char} (h : ∀ c ∈ l, c ≠ ',')
    (r : List Char) :
    splitComma (l ++ r) =
      (l ++ (splitComma r).headD []) :: (splitComma r).tail := by
  induction l with
  | nil =>
    rcases hsp : splitComma r with _ | ⟨a, t⟩
    · exact absurd hsp (splitComma_ne_nil r)
    · simp [hsp]
  | cons c l' ih =>
    rw [List.cons_append,
      splitComma_cons_of_ne (h c (List.mem_cons_self c l')) (l' ++ r),
      ih (fun x hx => h x (List.mem_cons_of_mem c hx))]
    simp

/-- `splitComma` of a comma-free list is the singleton of that list. -/
theorem splitComma_of_nocomma {l : List Char} (h : ∀ c ∈ l, c ≠ ',') :
    splitComma l = [l] := by
  have := splitComma_append_of_nocomma h []
  simpa [splitComma] using this

/-- `splitComma` of `A, B` with comma-free `A` and `B` is `[A, B]`. -/
theorem splitComma_single {A B : List Char} (hA : ∀ c ∈ A, c ≠ ',')
    (hB : ∀ c ∈ B, c ≠ ',') :
    splitComma (A ++ ',' :: B) = [A, B] := by
  rw [splitComma_append_of_nocomma hA]
  have h1 : splitComma (',' :: B) = [] :: splitComma B := by
    conv_lhs => unfold splitComma
    rw [if_pos rfl]
  rw [h1, splitComma_of_nocomma hB]
  simp

/-- Sign stripping in `floatBody` for a token starting (after the optional
sign) with a digit. -/
theorem floatBody_cons_digit {sgn : List Char} {d : Char} {rest' : List Char}
    (hsgn : sgn = [] ∨ sgn = ['-']) (hd : d.isDigit = true) :
    floatBody (sgn ++ d :: rest') = floatBodyCore (d :: rest') := by
  rcases hsgn with rfl | rfl
  · rw [List.nil_append]
    unfold floatBody
    rw [if_neg]
    rw [List.headD_cons]
    push_neg
    exact ⟨(digit_facts hd).2.2.1, (digit_facts hd).2.2.2.1⟩
  · rw [List.singleton_append]
    unfold floatBody
    rw [if_pos (Or.inr (by rw [List.headD_cons]))]
    rfl

/-- The float grammar accepts `digits` and `digits.digits`. -/
theorem floatBodyCore_token {ds tail : List Char} (hds_ne : ds ≠ [])
    (hds : ∀ c ∈ ds, c.isDigit = true)
    (htail : tail = [] ∨
      ∃ ds2, ds2 ≠ [] ∧ (∀ c ∈ ds2, c.isDigit = true) ∧ tail = '.' :: ds2) :
    floatBodyCore (ds ++ tail) = true := by
  unfold floatBodyCore
  rw [takeWhile_append_of_all hds, dropWhile_append_of_all hds]
  rcases htail with rfl | ⟨ds2, hds2_ne, hds2, rfl⟩
  · rw [List.takeWhile_nil, List.dropWhile_nil]
    rw [if_neg (by simp [hds_ne])]
    rw [if_neg (by simp)]
    rfl
  · rw [List.takeWhile_cons_of_neg (by decide), List.dropWhile_cons_of_neg (by decide)]
    rw [if_neg (by simp [hds_ne])]
    rw [List.headD_cons, if_pos rfl]
    show expPart (ds2.dropWhile Char.isDigit) = true
    rw [dropWhile_eq_nil_of_all hds2]
    rfl

/-- Character-level facts for a plain numeric token `sgn ++ ds`. -/
theorem token_chars_plain {sgn ds : List Char} (hsgn : sgn = [] ∨ sgn = ['-'])
    (hds : ∀ c ∈ ds, c.isDigit = true) :
    ∀ c ∈ sgn ++ ds, isWsChar c = false ∧ c ≠ ',' := by
  intro c hc
  rcases List.mem_append.1 hc with hs | hd
  · rcases hsgn with rfl | rfl
    · exact absurd hs (List.not_mem_nil c)
    · rcases List.mem_singleton.1 hs with rfl
      exact ⟨by decide, by decide⟩
  · exact ⟨(digit_facts (hds c hd)).1, (digit_facts (hds c hd)).2.1⟩

/-- Full token specification for the numeric-part parser. -/
theorem numTokenBody_spec {sgn cs1 t r : List Char}
    (hsgn : sgn = [] ∨ sgn = ['-'])
    (h : numTokenBody sgn cs1 = some (t, r)) :
    sgn ++ cs1 = t ++ r ∧ t ≠ [] ∧
      (∀ c ∈ t, isWsChar c = false ∧ c ≠ ',') ∧ floatBody t = true := by
  unfold numTokenBody at h
  have hds : ∀ c ∈ cs1.takeWhile Char.isDigit, c.isDigit = true :=
    fun c hc => List.mem_takeWhile_imp hc
  split_ifs at h with h1 h2 h3
  · -- digits, dot with no digits after: token is `sgn ++ ds`, rest keeps the dot
    rw [Option.some.injEq, Prod.mk.injEq] at h
    obtain ⟨rfl, rfl⟩ := h
    obtain ⟨d, ds', hds_eq⟩ := List.exists_cons_of_ne_nil h1
    refine ⟨?_, by simp [h1], token_chars_plain hsgn hds, ?_⟩
    · rw [List.append_assoc, List.takeWhile_append_dropWhile]
    · rw [hds_eq]
      rw [floatBody_cons_digit hsgn (hds d (by rw [hds_eq]; exact List.mem_cons_self d ds'))]
      have := @floatBodyCore_token (d :: ds') []
        (by simp)
        (fun c hc => hds c (by rw [hds_eq]; exact hc))
        (Or.inl rfl)
      rwa [List.append_nil] at this
  · -- digits, dot, digits: token is `sgn ++ ds ++ '.' :: ds2`
    rw [Option.some.injEq, Prod.mk.injEq] at h
    obtain ⟨rfl, rfl⟩ := h
    have hdw : cs1.dropWhile Char.isDigit =
        '.' :: (cs1.dropWhile Char.isDigit).tail := headD_eq_cons (by decide) h2
    have hds2 : ∀ c ∈ ((cs1.dropWhile Char.isDigit).tail).takeWhile Char.isDigit,
        c.isDigit = true := fun c hc => List.mem_takeWhile_imp hc
    refine ⟨?_, by simp, ?_, ?_⟩
    · conv_lhs =>
        rw [← List.takeWhile_append_dropWhile (p := Char.isDigit) (l := cs1), hdw,
          ← List.takeWhile_append_dropWhile (p := Char.isDigit)
            (l := (cs1.dropWhile Char.isDigit).tail)]
      simp [List.append_assoc]
    · intro c hc
      rw [List.append_assoc, List.mem_append] at hc
      rcases hc with hs | hc
      · rcases hsgn with rfl | rfl
        · exact absurd hs (List.not_mem_nil c)
        · rcases List.mem_singleton.1 hs with rfl
          exact ⟨by decide, by decide⟩
      · rw [List.mem_append] at hc
        rcases hc with hd | hc
        · exact ⟨(digit_facts (hds c hd)).1, (digit_facts (hds c hd)).2.1⟩
        · rcases List.mem_cons.1 hc with rfl | hd
          · exact ⟨by decide, by decide⟩
          · exact ⟨(digit_facts (hds2 c hd)).1, (digit_facts (hds2 c hd)).2.1⟩
    · obtain ⟨d, ds', hds_eq⟩ := List.exists_cons_of_ne_nil h1
      rw [List.append_assoc, hds_eq, List.cons_append]
      rw [floatBody_cons_digit hsgn (hds d (by rw [hds_eq]; exact List.mem_cons_self d ds'))]
      rw [← List.cons_append, ← hds_eq]
      exact floatBodyCore_token h1 hds
        (Or.inr ⟨_, h3, hds2, rfl⟩)
  · -- digits, no dot: token is `sgn ++ ds`
    rw [Option.some.injEq, Prod.mk.injEq] at h
    obtain ⟨rfl, rfl⟩ := h
    obtain ⟨d, ds', hds_eq⟩ := List.exists_cons_of_ne_nil h1
    refine ⟨?_, by simp [h1], token_chars_plain hsgn hds, ?_⟩
    · rw [List.append_assoc, List.takeWhile_append_dropWhile]
    · rw [hds_eq]
      rw [floatBody_cons_digit hsgn (hds d (by rw [hds_eq]; exact List.mem_cons_self d ds'))]
      have := @floatBodyCore_token (d :: ds') []
        (by simp)
        (fun c hc => hds c (by rw [hds_eq]; exact hc))
        (Or.inl rfl)
      rwa [List.append_nil] at this

/-- Token specification for the signed-number parser. -/
theorem numToken_spec {cs t r : List Char} (h : numToken cs = some (t, r)) :
    cs = t ++ r ∧ t ≠ [] ∧
      (∀ c ∈ t, isWsChar c = false ∧ c ≠ ',') ∧ floatBody t = true := by
  unfold numToken at h
  split_ifs at h with hs
  · have hcs : cs = '-' :: cs.tail := headD_eq_cons (by decide) hs
    obtain ⟨h1, h2, h3, h4⟩ := numTokenBody_spec (Or.inr rfl) h
    refine ⟨?_, h2, h3, h4⟩
    rw [hcs, ← h1]
    rfl
  · obtain ⟨h1, h2, h3, h4⟩ := numTokenBody_spec (Or.inl rfl) h
    refine ⟨?_, h2, h3, h4⟩
    rw [← h1]
    rfl

/-- C10.  Whenever `is_coordinates` accepts a string, splitting it on ','
yields exactly two components and each component is accepted by the
CPython `float` grammar, so the direct coordinate parse performed by
`fetch_route_estimates` on inputs classified as coordinates cannot fail. -/
theorem C10_coordinates_parse (s : String) (h : is_coordinates s = true) :
    (pySplitComma s).length = 2 ∧
    ∀ part ∈ pySplitComma s, pyFloatAccepts part = true := by
  unfold is_coordinates at h
  by_cases hempty : s.data = []
  · rw [if_pos hempty] at h
    exact absurd h (by simp)
  rw [if_neg hempty] at h
  unfold coordMatch at h
  rcases hnt1 : numToken (pyStrip s.data) with _ | ⟨t1, r1⟩
  · rw [hnt1] at h
    exact absurd h (by simp [coordCont])
  rw [hnt1] at h
  simp only [coordCont] at h
  rcases hr1 : r1 with _ | ⟨c, rest⟩
  · rw [hr1] at h
    exact absurd h (by simp [coordRest])
  rw [hr1] at h hnt1
  simp only [coordRest, Bool.and_eq_true, beq_iff_eq] at h
  obtain ⟨hc, hrest⟩ := h
  subst hc
  rcases hnt2 : numToken rest with _ | ⟨t2, r2⟩
  · rw [hnt2] at hrest
    exact absurd hrest (by simp [coordTail])
  rw [hnt2] at hrest
  simp only [coordTail] at hrest
  have hr2 : r2 = [] := by simpa [List.isEmpty_iff] using hrest
  subst hr2
  obtain ⟨hsplit1, hne1, hchars1, hfb1⟩ := numToken_spec hnt1
  obtain ⟨hsplit2, hne2, hchars2, hfb2⟩ := numToken_spec hnt2
  rw [List.append_nil] at hsplit2
  subst hsplit2
  obtain ⟨w1, w2, hdecomp, hw1, hw2⟩ := pyStrip_decomp s.data
  rw [hsplit1] at hdecomp
  have hgroup : s.data = (w1 ++ t1) ++ ',' :: (rest ++ w2) := by
    rw [hdecomp]
    simp [List.append_assoc]
  have hA : ∀ ch ∈ w1 ++ t1, ch ≠ ',' := by
    intro ch hch
    rcases List.mem_append.1 hch with hw | ht
    · exact ws_ne_comma (hw1 ch hw)
    · exact (hchars1 ch ht).2
  have hB : ∀ ch ∈ rest ++ w2, ch ≠ ',' := by
    intro ch hch
    rcases List.mem_append.1 hch with ht | hw
    · exact (hchars2 ch ht).2
    · exact ws_ne_comma (hw2 ch hw)
  have hsplitC : splitComma s.data = [w1 ++ t1, rest ++ w2] := by
    rw [hgroup]
    exact splitComma_single hA hB
  constructor
  · unfold pySplitComma
    rw [hsplitC]
    rfl
  · intro part hpart
    unfold pySplitComma at hpart
    rw [hsplitC] at hpart
    unfold pyFloatAccepts
    simp only [List.map_cons, List.map_nil] at hpart
    rcases List.mem_cons.1 hpart with rfl | hpart2
    · show floatBody (pyStrip (String.mk (w1 ++ t1)).data) = true
      have hdata : (String.mk (w1 ++ t1)).data = w1 ++ (t1 ++ []) := by simp
      rw [hdata,
        pyStrip_of_clean hw1 (fun ch hch => absurd hch (List.not_mem_nil ch))
          (fun ch hch => (hchars1 ch hch).1) hne1]
      exact hfb1
    · rcases List.mem_cons.1 hpart2 with rfl | hpart3
      · show floatBody (pyStrip (String.mk (rest ++ w2)).data) = true
        have hdata : (String.mk (rest ++ w2)).data = [] ++ (rest ++ w2) := by simp
        rw [hdata,
          pyStrip_of_clean (fun ch hch => absurd hch (List.not_mem_nil ch)) hw2
            (fun ch hch => (hchars2 ch hch).1) hne2]
        exact hfb2
      · exact absurd hpart3 (List.not_mem_nil part)

/-- C10 witness: the classified-coordinate string `" 1.5,-2 "` splits into
two float-parsable parts. -/
theorem C10_coordinates_parse_witness :
    (pySplitComma " 1.5,-2 ").length = 2 ∧
    ∀ part ∈ pySplitComma " 1.5,-2 ", pyFloatAccepts part = true :=
  C10_coordinates_parse " 1.5,-2 " (by decide)
